import Mathlib

/-!
Verification of the placefinder-th service (src/app.py) against its
natural-language specification.

Strings are modelled as `List Char` at the ASCII level: Python's
`str.lower`, `str.strip`, `str.isdigit` and the regex `\s` are modelled by
their ASCII behaviour (the dataset's interesting behaviour — codes, flags,
query parameters — is ASCII).  Absent values (Python `None`) are modelled
by `Option`.  Dictionaries with insertion order (Python `dict`) are
modelled by association lists with unique keys.
-/

/-- Characters matched by the regex class `\s` and `str.strip`, ASCII part:
space, tab, newline, carriage return, vertical tab, form feed. -/
def pyIsSpace (c : Char) : Bool :=
  c == ' ' || c == '\t' || c == '\n' || c == '\r' || c == '\x0b' || c == '\x0c'

/-- Python `str.strip()` (ASCII whitespace model): drop whitespace from both ends. -/
def pyStripL (l : List Char) : List Char :=
  ((l.dropWhile pyIsSpace).reverse.dropWhile pyIsSpace).reverse

/-- Python `str.lower()` (ASCII model): lowercase every character. -/
def lowerL (l : List Char) : List Char :=
  l.map Char.toLower

/-- Worker for `re.sub(r"\s+", " ", s)`: replace every maximal run of
whitespace by a single space.  The flag records whether the previous
character was part of a whitespace run whose single space was already
emitted. -/
def collapseAux : Bool → List Char → List Char
  | _, [] => []
  | b, c :: cs =>
    if pyIsSpace c then
      if b then collapseAux true cs else ' ' :: collapseAux true cs
    else
      c :: collapseAux false cs

/-- Model of `re.sub(r"\s+", " ", s)`. -/
def collapseWs (l : List Char) : List Char :=
  collapseAux false l

/-- Model of `normalize_text` from app.py:
`None` becomes `""`; otherwise strip, lowercase, collapse whitespace runs. -/
def normalize_text : Option (List Char) → List Char
  | none => []
  | some s => collapseWs (lowerL (pyStripL s))

/-- Python string `<` / `sorted` comparison (lexicographic by code point):
`lexLe a b` means `a <= b`. -/
def lexLe : List Char → List Char → Bool
  | [], _ => true
  | _ :: _, [] => false
  | a :: as, b :: bs => if a = b then lexLe as bs else decide (a < b)

/-- Strict variant of `lexLe`. -/
def lexLt (a b : List Char) : Bool :=
  lexLe a b && !(a == b)

/-- Python `s.startswith(p)`: `startsWithL p s` is true when `p` is an
initial segment of `s`. -/
def startsWithL : List Char → List Char → Bool
  | [], _ => true
  | _ :: _, [] => false
  | a :: as, b :: bs => a == b && startsWithL as bs

/-- Python `q in c` (contiguous substring test). -/
def isSubstr (q c : List Char) : Bool :=
  (List.range (c.length + 1)).any (fun i => (c.drop i).take q.length == q)

/-- Python `s.isdigit()` on ASCII strings: non-empty and all ASCII digits. -/
def pyIsdigitStr (s : List Char) : Bool :=
  !s.isEmpty && s.all Char.isDigit

/-- Digit-run parser for Python `int(s)`: digits with single underscores
allowed between digits (PEP 515).  The flag records whether the previous
character was a digit (so that an underscore is currently allowed). -/
def pdAux (acc : Nat) (prevDigit : Bool) : List Char → Option Nat
  | [] => if prevDigit then some acc else none
  | c :: cs =>
    if c.isDigit then pdAux (10 * acc + (c.toNat - 48)) true cs
    else if c = '_' then (if prevDigit then pdAux acc false cs else none) else none

/-- Model of Python `int(s)` on strings (ASCII): optional surrounding
whitespace, an optional sign, then digits; `none` models `ValueError`. -/
def pyParseInt (s : List Char) : Option Int :=
  match pyStripL s with
  | '+' :: r => (pdAux 0 false r).map Int.ofNat
  | '-' :: r => (pdAux 0 false r).map (fun n => -(n : Int))
  | r => (pdAux 0 false r).map Int.ofNat

/-- Python `s.zfill(5)`: left-pad with zeros to length 5, keeping a leading
sign in front of the padding. -/
def zfill5 (s : List Char) : List Char :=
  if 5 ≤ s.length then s
  else
    match s with
    | [] => List.replicate 5 '0'
    | c :: t =>
      if c = '+' ∨ c = '-' then c :: (List.replicate (5 - s.length) '0' ++ t)
      else List.replicate (5 - s.length) '0' ++ s

/-!
Model of `difflib.SequenceMatcher(None, a, b).ratio()` as used by
`is_match`.  `isjunk` is `None`, so the junk set `bjunk` is empty and the
two junk-extension loops of `find_longest_match` never run; they are
omitted.  Autojunk applies: when `len(b) >= 200`, elements occurring more
than `len(b) // 100 + 1` times are dropped from the `b2j` index (they can
still be absorbed by the non-junk extension loops, which are modelled).
-/

/-- Number of occurrences of `c` in `b`. -/
def countOcc (b : List Char) (c : Char) : Nat :=
  (b.filter (fun d => d == c)).length

/-- The index list `b2j[c]`: positions of `c` in `b`, ascending, with
popular elements dropped when autojunk applies. -/
def b2j (b : List Char) (c : Char) : List Nat :=
  if 200 ≤ b.length ∧ b.length / 100 + 1 < countOcc b c then []
  else (List.range b.length).filter (fun j => b.getD j ' ' == c ∧ j < b.length)

/-- Lookup in the `j2len` association list, defaulting to 0 (a Python
`dict.get(k, 0)`). -/
def alGetN (l : List (Nat × Nat)) (k : Nat) : Nat :=
  match l.find? (fun p => p.1 == k) with
  | some p => p.2
  | none => 0

/-- Inner loop of `find_longest_match` for one row `i`: walk the candidate
`j` positions, building the new `j2len` row and updating the best match. -/
def flmInner (j2len : List (Nat × Nat)) (i : Nat) :
    List Nat → List (Nat × Nat) → Nat × Nat × Nat → List (Nat × Nat) × (Nat × Nat × Nat)
  | [], new, best => (new, best)
  | j :: js, new, best =>
    let k := (if j = 0 then 0 else alGetN j2len (j - 1)) + 1
    let new' := (j, k) :: new
    let best' := if best.2.2 < k then (i + 1 - k, j + 1 - k, k) else best
    flmInner j2len i js new' best'

/-- Outer loop of `find_longest_match`: dynamic programming over the rows
`i` of `a` restricted to the window `[blo, bhi)` of `b`. -/
def flmOuter (a b : List Char) (blo bhi : Nat) :
    List Nat → List (Nat × Nat) → Nat × Nat × Nat → Nat × Nat × Nat
  | [], _, best => best
  | i :: is, j2len, best =>
    let js := (b2j b (a.getD i ' ')).filter (fun j => blo ≤ j ∧ j < bhi)
    let (new, best') := flmInner j2len i js [] best
    flmOuter a b blo bhi is new best'

/-- Backward extension loop of `find_longest_match` (the non-junk one;
`bjunk` is empty).  `fuel` bounds the recursion; `besti` decreases. -/
def extendBack (a b : List Char) (alo blo : Nat) :
    Nat → Nat × Nat × Nat → Nat × Nat × Nat
  | 0, best => best
  | fuel + 1, (bi, bj, bs) =>
    if alo < bi ∧ blo < bj ∧ a.getD (bi - 1) ' ' = b.getD (bj - 1) ' ' then
      extendBack a b alo blo fuel (bi - 1, bj - 1, bs + 1)
    else (bi, bj, bs)

/-- Forward extension loop of `find_longest_match` (the non-junk one). -/
def extendFwd (a b : List Char) (ahi bhi : Nat) :
    Nat → Nat × Nat × Nat → Nat × Nat × Nat
  | 0, best => best
  | fuel + 1, (bi, bj, bs) =>
    if bi + bs < ahi ∧ bj + bs < bhi ∧ a.getD (bi + bs) ' ' = b.getD (bj + bs) ' ' then
      extendFwd a b ahi bhi fuel (bi, bj, bs + 1)
    else (bi, bj, bs)

/-- `SequenceMatcher.find_longest_match(alo, ahi, blo, bhi)`. -/
def find_longest_match (a b : List Char) (alo ahi blo bhi : Nat) : Nat × Nat × Nat :=
  let best := flmOuter a b blo bhi (List.range' alo (ahi - alo)) [] (alo, blo, 0)
  let best' := extendBack a b alo blo best.1 best
  extendFwd a b ahi bhi ahi best'

/-- Total size of all matching blocks (the recursive divide-and-conquer of
`get_matching_blocks`; merging adjacent blocks does not change the sum).
`fuel` bounds the recursion; each recursive call strictly shrinks the
window sum, so `ahi + bhi + 1` fuel at the top level is enough. -/
def matchingSize (a b : List Char) : Nat → Nat → Nat → Nat → Nat → Nat
  | 0, _, _, _, _ => 0
  | fuel + 1, alo, ahi, blo, bhi =>
    let m := find_longest_match a b alo ahi blo bhi
    if m.2.2 = 0 then 0
    else
      m.2.2 + matchingSize a b fuel alo m.1 blo m.2.1 +
        matchingSize a b fuel (m.1 + m.2.2) ahi (m.2.1 + m.2.2) bhi

/-- Decision `SequenceMatcher(None, a, b).ratio() >= 0.75`, computed
exactly: `2*M/T >= 3/4` iff `3*T <= 8*M` (and `ratio()` of two empty
strings is defined as 1.0). -/
def ratioGe34 (a b : List Char) : Bool :=
  let m := matchingSize a b (a.length + b.length + 1) 0 a.length 0 b.length
  let t := a.length + b.length
  if t = 0 then true else decide (3 * t ≤ 8 * m)

/-- Model of `is_match(candidate, query, fuzzy)` from app.py. -/
def is_match (candidate query : Option (List Char)) (fuzzy : Bool) : Bool :=
  let c := normalize_text candidate
  let q := normalize_text query
  if q.isEmpty then true
  else if isSubstr q c then true
  else if fuzzy then ratioGe34 c q
  else false

/-!
Data model: raw dataset rows, resolved places, the postal-code mapping,
and the flattened record index.
-/

/-- A resolved location triple (the dicts appended into the Mapping and
returned as `locations`).  `province` may be absent when the source row
lists no provinces. -/
structure Place where
  province : Option (List Char)
  amphoe : List Char
  district : List Char
deriving DecidableEq, Repr

/-- An entry of a raw row's `districtList`. -/
structure DistrictEntry where
  districtId : Option Int
  districtName : Option (List Char)
deriving DecidableEq, Repr

/-- An entry of a raw row's `provinceList`. -/
structure ProvinceEntry where
  provinceId : Option Int
  provinceName : Option (List Char)
deriving DecidableEq, Repr

/-- An entry of a raw row's `subDistrictList`. -/
structure SubDistrictEntry where
  subDistrictName : Option (List Char)
  districtId : Option Int
deriving DecidableEq, Repr

/-- A raw dataset row.  `zipCode` holds `str(record.get("zipCode", ""))`,
the stringified form of the JSON field (absent coerces to `""`). -/
structure RawRecord where
  zipCode : List Char
  districtList : List DistrictEntry
  provinceList : List ProvinceEntry
  subDistrictList : List SubDistrictEntry
deriving DecidableEq, Repr

/-- Order `none` before `some`, `some` by `lexLt` (Python tuple comparison
on the province component; mixed `None`/`str` never compares unequal keys
within one row because `province_name` is fixed per row). -/
def optLtStr : Option (List Char) → Option (List Char) → Bool
  | none, none => false
  | none, some _ => true
  | some _, none => false
  | some a, some b => lexLt a b

/-- Python tuple `<=` on `(province, amphoe, district)` triples, the order
used by `sorted(unique_locations)`. -/
def placeLe (p q : Place) : Bool :=
  if p.province = q.province then
    if p.amphoe = q.amphoe then lexLe p.district q.district
    else lexLt p.amphoe q.amphoe
  else optLtStr p.province q.province

/-- The relation form of `placeLe` used with `List.insertionSort`. -/
def PlLe : Place → Place → Prop :=
  fun p q => placeLe p q = true

instance : DecidableRel PlLe :=
  fun p q => inferInstanceAs (Decidable (placeLe p q = true))

/-- Order on `Option Int` dictionary keys (`sorted(province_id_to_name)`;
`none` first — Python would raise on a mixed-type key set, which does not
occur for the per-row key sets we model). -/
def optIntLe : Option Int → Option Int → Bool
  | none, _ => true
  | some _, none => false
  | some a, some b => decide (a ≤ b)

/-- Value of key `k` in the dict comprehension over `districtList`
(later entries overwrite earlier ones; missing name fields give `None`).
Returns `none` for an absent key or a `None` value. -/
def lookupDistrictName (entries : List DistrictEntry) (k : Option Int) : Option (List Char) :=
  match entries.reverse.find? (fun e => e.districtId == k) with
  | some e => e.districtName
  | none => none

/-- Value of key `k` in the dict comprehension over `provinceList`. -/
def lookupProvinceName (entries : List ProvinceEntry) (k : Option Int) : Option (List Char) :=
  match entries.reverse.find? (fun e => e.provinceId == k) with
  | some e => e.provinceName
  | none => none

/-- Smallest key of a nonempty key list under `optIntLe`. -/
def minKey (k : Option Int) (t : List (Option Int)) : Option Int :=
  t.foldl (fun a b => if optIntLe a b then a else b) k

/-- The row's province name: the value at the lexicographically smallest
`provinceId` key, or `none` when `provinceList` is empty. -/
def provinceNameOf (pl : List ProvinceEntry) : Option (List Char) :=
  match pl.map (fun e => e.provinceId) with
  | [] => none
  | k :: t => lookupProvinceName pl (minKey k t)

/-- The set of `(province, amphoe, district)` triples collected from a
row's `subDistrictList`: a subdistrict is skipped when its name or its
resolved amphoe name is absent or empty. -/
def rowTriples (rec : RawRecord) : List Place :=
  rec.subDistrictList.filterMap (fun sd =>
    match sd.subDistrictName, lookupDistrictName rec.districtList sd.districtId with
    | some sdn, some am =>
      if sdn.isEmpty || am.isEmpty then none
      else some ⟨provinceNameOf rec.provinceList, am, sdn⟩
    | _, _ => none)

/-- `sorted(unique_locations)`: the distinct triples of the row in
ascending tuple order. -/
def rowPlaces (rec : RawRecord) : List Place :=
  List.insertionSort PlLe (rowTriples rec).dedup

/-- The zero-padded code of a row, when it survives the
`isdigit`/length-5 validation. -/
def validCode (rec : RawRecord) : Option (List Char) :=
  let code := zfill5 rec.zipCode
  if pyIsdigitStr code && code.length == 5 then some code else none

/-- `dict.setdefault(code, []).append(p)` on an insertion-ordered dict
modelled as an association list with unique keys: append to the first
entry with the key, or add a fresh key at the end. -/
def insertGrouped (g : List (List Char × List Place)) (c : List Char) (p : Place) :
    List (List Char × List Place) :=
  match g with
  | [] => [(c, [p])]
  | (k, v) :: t => if k = c then (k, v ++ [p]) :: t else (k, v) :: insertGrouped t c p

/-- Dict lookup (`dict.get`): value of the first entry with key `c`. -/
def alookup (g : List (List Char × List Place)) (c : List Char) : Option (List Place) :=
  match g with
  | [] => none
  | (k, v) :: t => if k = c then some v else alookup t c

/-- Processing of one raw row by `fetch_and_build_mapping`: skip it if
its code fails validation, otherwise append its sorted distinct triples
to the mapping entry of its code. -/
def processRow (m : List (List Char × List Place)) (rec : RawRecord) :
    List (List Char × List Place) :=
  match validCode rec with
  | none => m
  | some c => (rowPlaces rec).foldl (fun m p => insertGrouped m c p) m

/-- Model of `fetch_and_build_mapping`: the HTTP fetch and JSON decoding
are modelled by the already-decoded row list; the pure mapping
construction is the loop over the rows. -/
def fetch_and_build_mapping (rows : List RawRecord) : List (List Char × List Place) :=
  rows.foldl processRow []

/-!
Flattened record index and the request handlers.
-/

/-- A flattened row of the record index (one per (code, Place) pair),
with the precomputed normalized name fields. -/
structure Record where
  code : List Char
  province : Option (List Char)
  amphoe : List Char
  district : List Char
  province_n : List Char
  amphoe_n : List Char
  district_n : List Char
deriving DecidableEq, Repr

/-- Construction of `RECORDS` from the mapping, in mapping iteration
order. -/
def buildRecords (m : List (List Char × List Place)) : List Record :=
  (m.map (fun kv => kv.2.map (fun loc =>
    Record.mk kv.1 loc.province loc.amphoe loc.district
      (normalize_text loc.province) (normalize_text (some loc.amphoe))
      (normalize_text (some loc.district))))).flatten

/-- The relation form of `lexLe` used for sorting plain strings. -/
def LexLeR : List Char → List Char → Prop :=
  fun a b => lexLe a b = true

instance : DecidableRel LexLeR :=
  fun a b => inferInstanceAs (Decidable (lexLe a b = true))

/-- `UNIQUE_PROVINCES`: sorted distinct truthy province names. -/
def uniqueProvinces (records : List Record) : List (List Char) :=
  List.insertionSort LexLeR
    (((records.filterMap (fun r => r.province)).filter (fun p => !p.isEmpty)).dedup)

/-- `UNIQUE_AMPHOES`: sorted distinct truthy amphoe names. -/
def uniqueAmphoes (records : List Record) : List (List Char) :=
  List.insertionSort LexLeR (((records.map (fun r => r.amphoe)).filter (fun p => !p.isEmpty)).dedup)

/-- `UNIQUE_DISTRICTS`: sorted distinct truthy district names. -/
def uniqueDistricts (records : List Record) : List (List Char) :=
  List.insertionSort LexLeR (((records.map (fun r => r.district)).filter (fun p => !p.isEmpty)).dedup)

/-- `UNIQUE_ZIPCODES`: the mapping's keys, sorted. -/
def uniqueZipcodes (m : List (List Char × List Place)) : List (List Char) :=
  List.insertionSort LexLeR (m.map (fun kv => kv.1))

/-- The string "false", the default of the `fuzzy` query parameter. -/
def falseStr : List Char :=
  "false".toList

/-- Truthiness of the `fuzzy` parameter:
`value.lower() in ("1", "true", "yes", "y")`. -/
def fuzzyTruthy (s : List Char) : Bool :=
  let t := lowerL s
  t == "1".toList || t == "true".toList || t == "yes".toList || t == "y".toList

/-- Effective `limit` of /api/search: `max(1, min(200, int(param)))` with
fallback 50 on `ValueError` and default 50 when absent. -/
def effLimit (p : Option (List Char)) : Int :=
  match p with
  | none => max 1 (min 200 50)
  | some s =>
    match pyParseInt s with
    | some n => max 1 (min 200 n)
    | none => 50

/-- Effective `offset` of /api/search: `max(0, int(param))` with fallback
0 on `ValueError` and default 0 when absent. -/
def effOffset (p : Option (List Char)) : Int :=
  match p with
  | none => max 0 0
  | some s =>
    match pyParseInt s with
    | some n => max 0 n
    | none => 0

/-- Effective `limit` of /api/suggest: `max(1, min(20, int(param)))` with
fallback 10 on `ValueError` and default 10 when absent. -/
def effSuggestLimit (p : Option (List Char)) : Int :=
  match p with
  | none => max 1 (min 20 10)
  | some s =>
    match pyParseInt s with
    | some n => max 1 (min 20 n)
    | none => 10

/-- Response of /api/zipcode/{code}; option fields model keys absent from
the JSON body. -/
structure ZipResp where
  status : Nat
  error : Option (List Char)
  code : Option (List Char)
  locations : Option (List Place)
deriving DecidableEq, Repr

/-- Error message of the 400 branch of the zipcode endpoint. -/
def errInvalidZip : List Char :=
  "Invalid zipcode. Must be 5 digits.".toList

/-- Error message of the 404 branch of the zipcode endpoint. -/
def errZipNotFound : List Char :=
  "Zipcode not found in dataset.".toList

/-- Error message of the 404 branch of the reverse endpoint. -/
def errNoResults : List Char :=
  "No results found.".toList

/-- Model of `ZipcodeLookup.get`. -/
def zipcodeLookup (m : List (List Char × List Place)) (codeParam : List Char) : ZipResp :=
  let cc := pyStripL codeParam
  if !pyIsdigitStr cc || cc.length != 5 then ZipResp.mk 400 (some errInvalidZip) none none
  else
    let locations := (alookup m cc).getD []
    if locations.isEmpty then ZipResp.mk 404 (some errZipNotFound) (some cc) none
    else ZipResp.mk 200 none (some cc) (some locations)

/-- A result row of /api/search (the projection appended to `results`). -/
structure ResultRow where
  code : List Char
  province : Option (List Char)
  amphoe : List Char
  district : List Char
deriving DecidableEq, Repr

/-- Projection of a record to a /api/search result row. -/
def toRow (r : Record) : ResultRow :=
  ResultRow.mk r.code r.province r.amphoe r.district

/-- Projection of a record to a reverse-lookup location dict. -/
def toPlace (r : Record) : Place :=
  Place.mk r.province r.amphoe r.district

/-- The filter chain of `ForwardSearch.get` (and, inlined identically, of
`ui_search`): a record survives the loop's `continue` tests iff every
supplied filter passes.  `code_q` is the already-stripped code filter. -/
def searchPass (r : Record) (code_q provP amphP distP qP : List Char) (fz : Bool) : Bool :=
  (code_q.isEmpty || startsWithL code_q r.code) &&
  (provP.isEmpty || is_match r.province (some provP) fz) &&
  (amphP.isEmpty || is_match (some r.amphoe) (some amphP) fz) &&
  (distP.isEmpty || is_match (some r.district) (some distP) fz) &&
  (qP.isEmpty ||
    (is_match r.province (some qP) fz || is_match (some r.amphoe) (some qP) fz ||
      is_match (some r.district) (some qP) fz || startsWithL qP r.code))

/-- Response of /api/search. -/
structure SearchResp where
  total : Nat
  limit : Int
  offset : Int
  results : List ResultRow
  status : Nat
deriving DecidableEq, Repr

/-- Model of `ForwardSearch.get`.  Parameters are the raw query-string
values (`none` = absent). -/
def forwardSearch (records : List Record)
    (codeP provP amphP distP qP fuzzyP limitP offsetP : Option (List Char)) : SearchResp :=
  let code := codeP.getD []
  let province := provP.getD []
  let amphoe := amphP.getD []
  let district := distP.getD []
  let q := qP.getD []
  let fz := fuzzyTruthy (fuzzyP.getD falseStr)
  let limit := effLimit limitP
  let offset := effOffset offsetP
  let code_q := pyStripL code
  let results := (records.filter (fun r => searchPass r code_q province amphoe district q fz)).map toRow
  let total := results.length
  let paged := (results.drop offset.toNat).take limit.toNat
  SearchResp.mk total limit offset paged 200

/-- The filter chain of `ReverseLookup.get` (no code and no q filter). -/
def revPass (r : Record) (provP amphP distP : List Char) (fz : Bool) : Bool :=
  (provP.isEmpty || is_match r.province (some provP) fz) &&
  (amphP.isEmpty || is_match (some r.amphoe) (some amphP) fz) &&
  (distP.isEmpty || is_match (some r.district) (some distP) fz)

/-- Response of /api/reverse: `results` is the grouped list of
`(code, locations)` pairs. -/
structure ReverseResp where
  status : Nat
  error : Option (List Char)
  results : Option (List (List Char × List Place))
deriving DecidableEq, Repr

/-- Order on grouped entries used for `sorted(grouped.items())`: Python
compares the `(key, value)` tuples, but the keys are distinct dict keys,
so only the key comparison matters. -/
def KeyLe : (List Char × List Place) → (List Char × List Place) → Prop :=
  fun a b => lexLe a.1 b.1 = true

instance : DecidableRel KeyLe :=
  fun a b => inferInstanceAs (Decidable (lexLe a.1 b.1 = true))

/-- The records surviving the reverse filter loop (the loop's `continue`
tests), with the parameter defaults of `request.args.get` applied. -/
def revMatches (records : List Record) (provP amphP distP fuzzyP : Option (List Char)) :
    List Record :=
  records.filter (fun r =>
    revPass r (provP.getD []) (amphP.getD []) (distP.getD []) (fuzzyTruthy (fuzzyP.getD falseStr)))

/-- The `grouped` dict of `ReverseLookup.get`: `setdefault(code, []).append`
over the matching records in iteration order. -/
def revGrouped (records : List Record) (provP amphP distP fuzzyP : Option (List Char)) :
    List (List Char × List Place) :=
  (revMatches records provP amphP distP fuzzyP).foldl
    (fun g r => insertGrouped g r.code (toPlace r)) []

/-- Model of `ReverseLookup.get`. -/
def reverseLookup (records : List Record) (provP amphP distP fuzzyP : Option (List Char)) :
    ReverseResp :=
  if (revGrouped records provP amphP distP fuzzyP).isEmpty then
    ReverseResp.mk 404 (some errNoResults) none
  else
    ReverseResp.mk 200 none
      (some (List.insertionSort KeyLe (revGrouped records provP amphP distP fuzzyP)))

/-- Model of `ui_search`: result is `(results, total)` where `results`
is `none` when the bare form is rendered.  The `fuzzy` dict value
defaults to the string "false" exactly as in
`request.values.get("fuzzy", "false")`, and the `any(params.values())`
test is the truthiness or-chain over the six dict values.  The inline
filtering loop of `ui_search` is literally identical to the one in
`ForwardSearch.get`, hence the shared `searchPass`. -/
def uiSearch (records : List Record) (qP codeP provP amphP distP fuzzyP : Option (List Char)) :
    Option (List ResultRow) × Nat :=
  let q := qP.getD []
  let code := codeP.getD []
  let province := provP.getD []
  let amphoe := amphP.getD []
  let district := distP.getD []
  let fuzzyV := fuzzyP.getD falseStr
  if !q.isEmpty || !code.isEmpty || !province.isEmpty || !amphoe.isEmpty ||
      !district.isEmpty || !fuzzyV.isEmpty then
    let fz := fuzzyTruthy fuzzyV
    let rows := (records.filter (fun r => searchPass r (pyStripL code) province amphoe district q fz)).map toRow
    (some (rows.take 100), rows.length)
  else (none, 0)

/-- Response of /api/suggest. -/
structure SuggestResp where
  zipcodes : List (List Char)
  provinces : List (List Char)
  amphoes : List (List Char)
  districts : List (List Char)
  status : Nat
deriving DecidableEq, Repr

/-- The `filter_values` loop of `Suggest.get`: walk the values, pick the
ones whose normalized form contains `qn`, and stop as soon as `limit`
picks were collected. -/
def filterValuesAux (qn : List Char) (limit : Nat) (picks : List (List Char)) :
    List (List Char) → List (List Char)
  | [] => picks
  | v :: vs =>
    if isSubstr qn (normalize_text (some v)) then
      if limit ≤ (picks ++ [v]).length then picks ++ [v]
      else filterValuesAux qn limit (picks ++ [v]) vs
    else
      if limit ≤ picks.length then picks
      else filterValuesAux qn limit picks vs

/-- `filter_values(values)` with an empty accumulator. -/
def filter_values (qn : List Char) (limit : Nat) (values : List (List Char)) : List (List Char) :=
  filterValuesAux qn limit [] values

/-- Model of `Suggest.get`, parameterized by the four distinct-value index
lists. -/
def suggestHandler (zips provs amphs dists : List (List Char)) (qP limitP : Option (List Char)) :
    SuggestResp :=
  let q := qP.getD []
  let limit := (effSuggestLimit limitP).toNat
  let qn := normalize_text (some q)
  if qn.isEmpty then
    SuggestResp.mk (zips.take limit) (provs.take limit) (amphs.take limit) (dists.take limit) 200
  else
    SuggestResp.mk ((zips.filter (fun z => startsWithL qn z)).take limit)
      (filter_values qn limit provs) (filter_values qn limit amphs)
      (filter_values qn limit dists) 200

/-!
Order lemmas: `lexLe` is a total preorder with antisymmetry, and the
derived orders on places and grouped entries are total and transitive,
which is what `List.sorted_insertionSort` needs.
-/

theorem lexLe_refl (l : List Char) : lexLe l l = true := by
  induction l with
  | nil => rfl
  | cons c t ih => simp [lexLe, ih]

theorem lexLe_total (a b : List Char) : lexLe a b = true ∨ lexLe b a = true := by
  induction a generalizing b with
  | nil => left; rfl
  | cons x xs ih =>
    cases b with
    | nil => right; rfl
    | cons y ys =>
      by_cases hxy : x = y
      · subst hxy
        simpa [lexLe] using ih ys
      · rcases lt_trichotomy x y with h | h | h
        · left; simp [lexLe, hxy, h]
        · exact absurd h hxy
        · right; simp [lexLe, Ne.symm hxy, h]

theorem lexLe_trans {a b c : List Char} (h1 : lexLe a b = true) (h2 : lexLe b c = true) :
    lexLe a c = true := by
  induction a generalizing b c with
  | nil => rfl
  | cons x xs ih =>
    cases b with
    | nil => simp [lexLe] at h1
    | cons y ys =>
      cases c with
      | nil => simp [lexLe] at h2
      | cons z zs =>
        by_cases hxy : x = y <;> by_cases hyz : y = z
        · subst hxy; subst hyz
          simp only [lexLe, if_pos rfl] at h1 h2 ⊢
          exact ih h1 h2
        · subst hxy
          simp only [lexLe, if_pos rfl] at h1
          simp only [lexLe, if_neg hyz] at h2 ⊢
          exact h2
        · subst hyz
          simp only [lexLe, if_neg hxy] at h1 ⊢
          exact h1
        · simp only [lexLe, if_neg hxy] at h1
          simp only [lexLe, if_neg hyz] at h2
          have hxz : x < z := lt_trans (of_decide_eq_true h1) (of_decide_eq_true h2)
          simp [lexLe, ne_of_lt hxz, hxz]

theorem lexLe_antisymm {a b : List Char} (h1 : lexLe a b = true) (h2 : lexLe b a = true) :
    a = b := by
  induction a generalizing b with
  | nil =>
    cases b with
    | nil => rfl
    | cons y ys => simp [lexLe] at h2
  | cons x xs ih =>
    cases b with
    | nil => simp [lexLe] at h1
    | cons y ys =>
      by_cases hxy : x = y
      · subst hxy
        simp only [lexLe, if_pos rfl] at h1 h2
        rw [ih h1 h2]
      · simp only [lexLe, if_neg hxy] at h1
        simp only [lexLe, if_neg (Ne.symm hxy)] at h2
        exact absurd (lt_trans (of_decide_eq_true h1) (of_decide_eq_true h2)) (lt_irrefl x)

theorem lexLt_le {a b : List Char} (h : lexLt a b = true) : lexLe a b = true := by
  simp only [lexLt, Bool.and_eq_true] at h
  exact h.1

theorem lexLt_ne {a b : List Char} (h : lexLt a b = true) : a ≠ b := by
  simp only [lexLt, Bool.and_eq_true, Bool.not_eq_true', beq_eq_false_iff_ne] at h
  exact h.2

theorem lexLt_of_le_ne {a b : List Char} (h1 : lexLe a b = true) (h2 : a ≠ b) :
    lexLt a b = true := by
  simp only [lexLt, Bool.and_eq_true, Bool.not_eq_true', beq_eq_false_iff_ne]
  exact ⟨h1, h2⟩

theorem lexLt_total_ne {a b : List Char} (h : a ≠ b) :
    lexLt a b = true ∨ lexLt b a = true := by
  rcases lexLe_total a b with hle | hle
  · exact Or.inl (lexLt_of_le_ne hle h)
  · exact Or.inr (lexLt_of_le_ne hle (Ne.symm h))

theorem lexLt_asymm {a b : List Char} (h1 : lexLt a b = true) (h2 : lexLt b a = true) :
    False :=
  lexLt_ne h1 (lexLe_antisymm (lexLt_le h1) (lexLt_le h2))

theorem lexLt_trans {a b c : List Char} (h1 : lexLt a b = true) (h2 : lexLt b c = true) :
    lexLt a c = true := by
  refine lexLt_of_le_ne (lexLe_trans (lexLt_le h1) (lexLt_le h2)) ?_
  intro hac
  subst hac
  exact lexLt_asymm h1 h2

theorem optLtStr_asymm {a b : Option (List Char)} (h1 : optLtStr a b = true)
    (h2 : optLtStr b a = true) : False := by
  cases a <;> cases b <;> simp [optLtStr] at h1 h2
  exact lexLt_asymm h1 h2

theorem optLtStr_trans {a b c : Option (List Char)} (h1 : optLtStr a b = true)
    (h2 : optLtStr b c = true) : optLtStr a c = true := by
  cases a <;> cases b <;> cases c <;> simp [optLtStr] at h1 h2 ⊢
  exact lexLt_trans h1 h2

theorem optLtStr_total_ne {a b : Option (List Char)} (h : a ≠ b) :
    optLtStr a b = true ∨ optLtStr b a = true := by
  cases a with
  | none =>
    cases b with
    | none => exact absurd rfl h
    | some y => left; rfl
  | some x =>
    cases b with
    | none => right; rfl
    | some y =>
      have hxy : x ≠ y := by intro he; exact h (by rw [he])
      simpa [optLtStr] using lexLt_total_ne hxy

theorem placeLe_total (p q : Place) : PlLe p q ∨ PlLe q p := by
  unfold PlLe placeLe
  by_cases hp : p.province = q.province
  · rw [if_pos hp, if_pos hp.symm]
    by_cases ha : p.amphoe = q.amphoe
    · rw [if_pos ha, if_pos ha.symm]
      exact lexLe_total p.district q.district
    · rw [if_neg ha, if_neg (Ne.symm ha)]
      exact lexLt_total_ne ha
  · rw [if_neg hp, if_neg (Ne.symm hp)]
    exact optLtStr_total_ne hp

theorem placeLe_trans {p q r : Place} (h1 : PlLe p q) (h2 : PlLe q r) : PlLe p r := by
  unfold PlLe placeLe at h1 h2 ⊢
  by_cases hpq : p.province = q.province <;> by_cases hqr : q.province = r.province
  · rw [if_pos hpq] at h1
    rw [if_pos hqr] at h2
    rw [if_pos (hpq.trans hqr)]
    by_cases hapq : p.amphoe = q.amphoe <;> by_cases haqr : q.amphoe = r.amphoe
    · rw [if_pos hapq] at h1
      rw [if_pos haqr] at h2
      rw [if_pos (hapq.trans haqr)]
      exact lexLe_trans h1 h2
    · rw [if_pos hapq] at h1
      rw [if_neg haqr] at h2
      rw [if_neg (hapq ▸ haqr), hapq]
      exact h2
    · rw [if_neg hapq] at h1
      rw [if_pos haqr] at h2
      rw [if_neg (haqr ▸ hapq), ← haqr]
      exact h1
    · rw [if_neg hapq] at h1
      rw [if_neg haqr] at h2
      have h3 := lexLt_trans h1 h2
      rw [if_neg (lexLt_ne h3)]
      exact h3
  · rw [if_pos hpq] at h1
    rw [if_neg hqr] at h2
    have hpr : p.province ≠ r.province := by
      intro he
      exact hqr (hpq ▸ he)
    rw [if_neg hpr, hpq]
    exact h2
  · rw [if_neg hpq] at h1
    rw [if_pos hqr] at h2
    have hpr : p.province ≠ r.province := by
      intro he
      exact hpq (he.trans hqr.symm)
    rw [if_neg hpr, ← hqr]
    exact h1
  · rw [if_neg hpq] at h1
    rw [if_neg hqr] at h2
    have h3 := optLtStr_trans h1 h2
    have hpr : p.province ≠ r.province := by
      intro he
      rw [he] at h3
      exact optLtStr_asymm h3 h3
    rw [if_neg hpr]
    exact h3

instance : IsTotal Place PlLe :=
  ⟨placeLe_total⟩

instance : IsTrans Place PlLe :=
  ⟨fun _ _ _ => placeLe_trans⟩

instance : IsTotal (List Char × List Place) KeyLe :=
  ⟨fun a b => lexLe_total a.1 b.1⟩

instance : IsTrans (List Char × List Place) KeyLe :=
  ⟨fun _ _ _ h1 h2 => lexLe_trans h1 h2⟩

instance : IsTotal (List Char) LexLeR :=
  ⟨lexLe_total⟩

instance : IsTrans (List Char) LexLeR :=
  ⟨fun _ _ _ h1 h2 => lexLe_trans h1 h2⟩

/-!
Lemmas about `normalize_text`, leading to idempotence (claim C9).
-/

theorem charToNat_ofNat {n : Nat} (h : n.isValidChar) : (Char.ofNat n).toNat = n := by
  simp only [Char.ofNat, h, dite_true, Char.ofNatAux, Char.toNat]
  rfl

theorem toLower_idem (c : Char) : Char.toLower (Char.toLower c) = Char.toLower c := by
  by_cases h : 65 ≤ c.toNat ∧ c.toNat ≤ 90
  · have hv : (c.toNat + 32).isValidChar := by left; omega
    have key : (Char.ofNat (c.toNat + 32)).toNat = c.toNat + 32 := charToNat_ofNat hv
    have hinner : Char.toLower c = Char.ofNat (c.toNat + 32) := by
      simp only [Char.toLower, ge_iff_le]
      rw [if_pos ⟨h.1, h.2⟩]
    rw [hinner]
    simp only [Char.toLower, ge_iff_le, key]
    rw [if_neg (by omega)]
  · have hinner : Char.toLower c = c := by
      simp only [Char.toLower, ge_iff_le]
      rw [if_neg h]
    rw [hinner, hinner]

theorem pyIsSpace_gt32 {x : Char} (h : 32 < x.toNat) : pyIsSpace x = false := by
  simp only [pyIsSpace, Bool.or_eq_false_iff, beq_eq_false_iff_ne]
  refine ⟨⟨⟨⟨⟨?_, ?_⟩, ?_⟩, ?_⟩, ?_⟩, ?_⟩ <;> (intro he; subst he; revert h; decide)

theorem pyIsSpace_toLower (c : Char) : pyIsSpace (Char.toLower c) = pyIsSpace c := by
  by_cases h : 65 ≤ c.toNat ∧ c.toNat ≤ 90
  · have hv : (c.toNat + 32).isValidChar := by left; omega
    have key : (Char.ofNat (c.toNat + 32)).toNat = c.toNat + 32 := charToNat_ofNat hv
    have hinner : Char.toLower c = Char.ofNat (c.toNat + 32) := by
      simp only [Char.toLower, ge_iff_le]
      rw [if_pos ⟨h.1, h.2⟩]
    rw [hinner, pyIsSpace_gt32 (by rw [key]; omega), pyIsSpace_gt32 (by omega)]
  · have hinner : Char.toLower c = c := by
      simp only [Char.toLower, ge_iff_le]
      rw [if_neg h]
    rw [hinner]

/-- No trailing whitespace: the last character, if any, is not whitespace. -/
def trailOk : List Char → Bool
  | [] => true
  | [c] => !pyIsSpace c
  | _ :: c :: t => trailOk (c :: t)

/-- Shape invariant of normalized strings, parameterized by whether the
previous character was a space: no character other than a plain space is
whitespace, no two adjacent spaces, no leading or trailing space. -/
def wsRun : Bool → List Char → Bool
  | b, [] => !b
  | b, c :: cs => if c = ' ' then !b && wsRun true cs else !pyIsSpace c && wsRun false cs

theorem collapseAux_cons_sp_t {c : Char} (hc : pyIsSpace c = true) (cs : List Char) :
    collapseAux true (c :: cs) = collapseAux true cs := by
  simp only [collapseAux, hc, if_true]

theorem collapseAux_cons_sp_f {c : Char} (hc : pyIsSpace c = true) (cs : List Char) :
    collapseAux false (c :: cs) = ' ' :: collapseAux true cs := by
  simp only [collapseAux, hc, if_true, if_false, Bool.false_eq_true]

theorem collapseAux_cons_ns {c : Char} (hc : pyIsSpace c = false) (b : Bool) (cs : List Char) :
    collapseAux b (c :: cs) = c :: collapseAux false cs := by
  simp only [collapseAux, hc, Bool.false_eq_true, if_false]

theorem collapseAux_idem (l : List Char) : ∀ b, collapseAux b (collapseAux b l) = collapseAux b l := by
  induction l with
  | nil => intro b; rfl
  | cons c t ih =>
    intro b
    by_cases hc : pyIsSpace c = true
    · by_cases hb : b
      · subst hb
        simp only [collapseAux, hc, if_pos rfl, if_true]
        exact ih true
      · simp only [Bool.not_eq_true] at hb
        subst hb
        simp only [collapseAux, hc, if_true, if_false, Bool.false_eq_true]
        have hsp : pyIsSpace ' ' = true := by decide
        simp only [collapseAux, hsp, if_true]
        rw [ih true]
    · have hc' : pyIsSpace c = false := by simpa using hc
      rw [collapseAux_cons_ns hc', collapseAux_cons_ns hc', ih false]

theorem collapseAux_ne_nil {t : List Char} (ht : trailOk t = true) (hne : t ≠ []) :
    ∀ b, collapseAux b t ≠ [] := by
  induction t with
  | nil => exact absurd rfl hne
  | cons c t' ih =>
    intro b
    cases t' with
    | nil =>
      have hc : pyIsSpace c = false := by simpa [trailOk] using ht
      simp [collapseAux, hc]
    | cons d t'' =>
      have ht' : trailOk (d :: t'') = true := by simpa [trailOk] using ht
      by_cases hc : pyIsSpace c = true
      · by_cases hb : b
        · subst hb
          simpa [collapseAux, hc] using ih ht' (by simp) true
        · simp only [Bool.not_eq_true] at hb
          subst hb
          simp [collapseAux, hc]
      · simp [collapseAux, hc]

theorem getLast?_collapseAux {t : List Char} (ht : trailOk t = true) :
    ∀ b c, (collapseAux b t).getLast? = some c → pyIsSpace c = false := by
  induction t with
  | nil => intro b c h; simp [collapseAux] at h
  | cons d t' ih =>
    intro b c h
    cases t' with
    | nil =>
      have hd : pyIsSpace d = false := by simpa [trailOk] using ht
      simp only [collapseAux, hd, if_false, Bool.false_eq_true] at h
      simp only [List.getLast?] at h
      cases h
      exact hd
    | cons e t'' =>
      have ht' : trailOk (e :: t'') = true := by simpa [trailOk] using ht
      have hne : (e :: t'') ≠ [] := by simp
      by_cases hd : pyIsSpace d = true
      · by_cases hb : b
        · subst hb
          rw [collapseAux_cons_sp_t hd] at h
          exact ih ht' true c h
        · simp only [Bool.not_eq_true] at hb
          subst hb
          rw [collapseAux_cons_sp_f hd] at h
          obtain ⟨x, xs, hx⟩ := List.exists_cons_of_ne_nil (collapseAux_ne_nil ht' hne true)
          rw [hx, List.getLast?_cons_cons, ← hx] at h
          exact ih ht' true c h
      · have hd' : pyIsSpace d = false := by simpa using hd
        rw [collapseAux_cons_ns hd'] at h
        obtain ⟨x, xs, hx⟩ := List.exists_cons_of_ne_nil (collapseAux_ne_nil ht' hne false)
        rw [hx, List.getLast?_cons_cons, ← hx] at h
        exact ih ht' false c h

theorem mem_collapseAux {c : Char} {l : List Char} :
    ∀ b, c ∈ collapseAux b l → c = ' ' ∨ c ∈ l := by
  induction l with
  | nil => intro b h; simp [collapseAux] at h
  | cons d t ih =>
    intro b h
    by_cases hd : pyIsSpace d = true
    · by_cases hb : b
      · subst hb
        simp only [collapseAux, hd, if_true] at h
        rcases ih true h with h1 | h1
        · exact Or.inl h1
        · exact Or.inr (List.mem_cons_of_mem _ h1)
      · simp only [Bool.not_eq_true] at hb
        subst hb
        simp only [collapseAux, hd, if_true, if_false, Bool.false_eq_true, List.mem_cons] at h
        rcases h with h1 | h1
        · exact Or.inl h1
        · rcases ih true h1 with h2 | h2
          · exact Or.inl h2
          · exact Or.inr (List.mem_cons_of_mem _ h2)
    · simp only [collapseAux, hd, if_false, Bool.false_eq_true, List.mem_cons] at h
      rcases h with h1 | h1
      · exact Or.inr (h1 ▸ List.mem_cons_self _ _)
      · rcases ih false h1 with h2 | h2
        · exact Or.inl h2
        · exact Or.inr (List.mem_cons_of_mem _ h2)

theorem dropWhile_eq_self_of_head {p : Char → Bool} {l : List Char}
    (h : ∀ c, l.head? = some c → p c = false) : l.dropWhile p = l := by
  cases l with
  | nil => rfl
  | cons a t => simp [List.dropWhile, h a rfl]

theorem head?_dropWhile {p : Char → Bool} {l : List Char} :
    ∀ c, (l.dropWhile p).head? = some c → p c = false := by
  induction l with
  | nil => intro c h; simp [List.dropWhile] at h
  | cons a t ih =>
    intro c h
    by_cases ha : p a = true
    · rw [List.dropWhile_cons_of_pos ha] at h
      exact ih c h
    · rw [List.dropWhile_cons_of_neg ha] at h
      simp only [List.head?_cons, Option.some.injEq] at h
      cases h
      simpa using ha

theorem getLast?_dropWhile {p : Char → Bool} {l : List Char}
    (hne : l.dropWhile p ≠ []) : (l.dropWhile p).getLast? = l.getLast? := by
  induction l with
  | nil => rfl
  | cons a t ih =>
    by_cases ha : p a = true
    · rw [List.dropWhile_cons_of_pos ha]
      rw [List.dropWhile_cons_of_pos ha] at hne
      have htne : t ≠ [] := by
        intro he
        rw [he] at hne
        exact hne rfl
      obtain ⟨x, xs, hx⟩ := List.exists_cons_of_ne_nil htne
      rw [hx, List.getLast?_cons_cons, ← hx]
      exact ih hne
    · rw [List.dropWhile_cons_of_neg ha]

theorem pyStripL_head {s : List Char} :
    ∀ c, (pyStripL s).head? = some c → pyIsSpace c = false := by
  intro c h
  unfold pyStripL at h
  rw [List.head?_reverse] at h
  have hne : (s.dropWhile pyIsSpace).reverse.dropWhile pyIsSpace ≠ [] := by
    intro he
    rw [he] at h
    simp at h
  rw [getLast?_dropWhile hne, List.getLast?_reverse] at h
  exact head?_dropWhile c h

theorem pyStripL_last {s : List Char} :
    ∀ c, (pyStripL s).getLast? = some c → pyIsSpace c = false := by
  intro c h
  unfold pyStripL at h
  rw [List.getLast?_reverse] at h
  exact head?_dropWhile c h

theorem trailOk_of_getLast? {l : List Char}
    (h : ∀ c, l.getLast? = some c → pyIsSpace c = false) : trailOk l = true := by
  induction l with
  | nil => rfl
  | cons a t ih =>
    cases t with
    | nil =>
      simp only [trailOk, Bool.not_eq_true']
      exact h a rfl
    | cons b t' =>
      simp only [trailOk]
      refine ih ?_
      intro c hc
      refine h c ?_
      rw [List.getLast?_cons_cons]
      exact hc

theorem head?_collapseWs {z : List Char}
    (hz : ∀ c, z.head? = some c → pyIsSpace c = false) :
    ∀ c, (collapseWs z).head? = some c → pyIsSpace c = false := by
  intro c h
  cases z with
  | nil => simp [collapseWs, collapseAux] at h
  | cons d t =>
    have hd : pyIsSpace d = false := hz d rfl
    unfold collapseWs at h
    rw [collapseAux_cons_ns hd] at h
    simp only [List.head?_cons, Option.some.injEq] at h
    cases h
    exact hd

theorem map_toLower_eq_self {l : List Char} (h : ∀ c ∈ l, Char.toLower c = c) :
    lowerL l = l := by
  induction l with
  | nil => rfl
  | cons a t ih =>
    unfold lowerL
    simp only [List.map_cons]
    rw [h a (List.mem_cons_self a t)]
    have := ih (fun c hc => h c (List.mem_cons_of_mem a hc))
    unfold lowerL at this
    rw [this]

theorem pyStripL_eq_self {l : List Char}
    (h1 : ∀ c, l.head? = some c → pyIsSpace c = false)
    (h2 : ∀ c, l.getLast? = some c → pyIsSpace c = false) : pyStripL l = l := by
  unfold pyStripL
  rw [dropWhile_eq_self_of_head h1]
  rw [dropWhile_eq_self_of_head (by
    intro c hc
    rw [List.head?_reverse] at hc
    exact h2 c hc)]
  exact List.reverse_reverse l

theorem normalize_some_idem (s : List Char) :
    normalize_text (some (normalize_text (some s))) = normalize_text (some s) := by
  show collapseWs (lowerL (pyStripL (normalize_text (some s)))) = normalize_text (some s)
  have hzh : ∀ c, (lowerL (pyStripL s)).head? = some c → pyIsSpace c = false := by
    intro c h
    unfold lowerL at h
    rw [List.head?_map] at h
    cases hh : (pyStripL s).head? with
    | none => rw [hh] at h; simp at h
    | some d =>
      rw [hh] at h
      simp only [Option.map_some', Option.some.injEq] at h
      cases h
      rw [pyIsSpace_toLower]
      exact pyStripL_head d hh
  have hzt : trailOk (lowerL (pyStripL s)) = true := by
    refine trailOk_of_getLast? ?_
    intro c h
    unfold lowerL at h
    rw [List.getLast?_map] at h
    cases hh : (pyStripL s).getLast? with
    | none => rw [hh] at h; simp at h
    | some d =>
      rw [hh] at h
      simp only [Option.map_some', Option.some.injEq] at h
      cases h
      rw [pyIsSpace_toLower]
      exact pyStripL_last d hh
  have hwh : ∀ c, (normalize_text (some s)).head? = some c → pyIsSpace c = false :=
    head?_collapseWs hzh
  have hwt : ∀ c, (normalize_text (some s)).getLast? = some c → pyIsSpace c = false :=
    fun c h => getLast?_collapseAux hzt false c h
  have hstrip : pyStripL (normalize_text (some s)) = normalize_text (some s) :=
    pyStripL_eq_self hwh hwt
  have hlower : lowerL (normalize_text (some s)) = normalize_text (some s) := by
    refine map_toLower_eq_self ?_
    intro c hc
    rcases mem_collapseAux false hc with h1 | h1
    · subst h1; decide
    · unfold lowerL at h1
      rcases List.mem_map.mp h1 with ⟨d, _, hd⟩
      rw [← hd]
      exact toLower_idem d
  rw [hstrip, hlower]
  exact collapseAux_idem (lowerL (pyStripL s)) false

/-- C9: `normalize` treats an absent value as the empty string, and is
idempotent on every string; as a total Lean function it never errors. -/
theorem C9_normalize_idempotent :
    normalize_text none = [] ∧
    ∀ s : List Char, normalize_text (some (normalize_text (some s))) = normalize_text (some s) :=
  ⟨rfl, normalize_some_idem⟩

/-!
Lemmas about the insertion-ordered grouping dictionary (`setdefault` +
`append`), shared by the mapping builder and the reverse endpoint.
-/

theorem alookup_insertGrouped_self (g : List (List Char × List Place)) (c : List Char) (p : Place) :
    alookup (insertGrouped g c p) c = some ((alookup g c).getD [] ++ [p]) := by
  induction g with
  | nil => simp [insertGrouped, alookup]
  | cons kv t ih =>
    obtain ⟨k, v⟩ := kv
    by_cases hk : k = c
    · subst hk
      simp [insertGrouped, alookup]
    · simp only [insertGrouped, hk, if_false, Bool.false_eq_true]
      simp only [alookup, hk, if_false, Bool.false_eq_true]
      exact ih

theorem alookup_insertGrouped_other {c c' : List Char} (h : c' ≠ c)
    (g : List (List Char × List Place)) (p : Place) :
    alookup (insertGrouped g c p) c' = alookup g c' := by
  induction g with
  | nil => simp [insertGrouped, alookup, Ne.symm h]
  | cons kv t ih =>
    obtain ⟨k, v⟩ := kv
    by_cases hk : k = c
    · subst hk
      have hkc : ¬(k = c') := fun he => h he.symm
      simp [insertGrouped, alookup, hkc]
    · simp only [insertGrouped, hk, if_false, Bool.false_eq_true]
      by_cases hk' : k = c'
      · subst hk'
        simp [alookup]
      · simp only [alookup, hk', if_false, Bool.false_eq_true]
        exact ih

theorem alookup_isSome_iff (g : List (List Char × List Place)) (c : List Char) :
    (alookup g c).isSome = true ↔ c ∈ g.map Prod.fst := by
  induction g with
  | nil => simp [alookup]
  | cons kv t ih =>
    obtain ⟨k, v⟩ := kv
    by_cases hk : k = c
    · subst hk
      simp [alookup]
    · simp only [alookup, hk, if_false, Bool.false_eq_true, List.map_cons, List.mem_cons]
      rw [ih]
      constructor
      · exact Or.inr
      · rintro (h1 | h1)
        · exact absurd h1.symm hk
        · exact h1

theorem keys_insertGrouped (g : List (List Char × List Place)) (c : List Char) (p : Place) :
    (insertGrouped g c p).map Prod.fst =
      if c ∈ g.map Prod.fst then g.map Prod.fst else g.map Prod.fst ++ [c] := by
  induction g with
  | nil => simp [insertGrouped]
  | cons kv t ih =>
    obtain ⟨k, v⟩ := kv
    by_cases hk : k = c
    · subst hk
      simp [insertGrouped]
    · simp only [insertGrouped, hk, if_false, Bool.false_eq_true, List.map_cons, ih]
      by_cases hmem : c ∈ t.map Prod.fst
      · rw [if_pos hmem, if_pos (by simp [List.mem_cons, hmem])]
      · rw [if_neg hmem, if_neg (by
          simp only [List.mem_cons]
          rintro (h1 | h1)
          · exact hk h1.symm
          · exact hmem h1)]
        simp

theorem keysNodup_insertGrouped {g : List (List Char × List Place)}
    (h : (g.map Prod.fst).Nodup) (c : List Char) (p : Place) :
    ((insertGrouped g c p).map Prod.fst).Nodup := by
  rw [keys_insertGrouped]
  by_cases hmem : c ∈ g.map Prod.fst
  · rw [if_pos hmem]
    exact h
  · rw [if_neg hmem, ← List.concat_eq_append]
    exact List.Nodup.concat hmem h

theorem mem_iff_alookup {g : List (List Char × List Place)}
    (h : (g.map Prod.fst).Nodup) (pr : List Char × List Place) :
    pr ∈ g ↔ alookup g pr.1 = some pr.2 := by
  induction g with
  | nil => simp [alookup]
  | cons kv t ih =>
    obtain ⟨k, v⟩ := kv
    simp only [List.map_cons, List.nodup_cons] at h
    by_cases hk : k = pr.1
    · subst hk
      simp only [alookup, eq_self_iff_true, if_true, List.mem_cons, Option.some.injEq]
      constructor
      · rintro (h1 | h1)
        · exact (congrArg Prod.snd h1).symm
        · exact absurd (List.mem_map_of_mem Prod.fst h1) h.1
      · intro h1
        left
        rw [h1]
    · simp only [alookup, hk, if_false, Bool.false_eq_true, List.mem_cons]
      rw [← ih h.2]
      constructor
      · rintro (h1 | h1)
        · exact absurd (congrArg Prod.fst h1).symm hk
        · exact h1
      · exact Or.inr

theorem alookup_foldGroup (rs : List Record) :
    ∀ (g : List (List Char × List Place)) (c : List Char),
      alookup (rs.foldl (fun g r => insertGrouped g r.code (toPlace r)) g) c =
        if (alookup g c).isSome = true ∨ rs.filter (fun r => r.code == c) ≠ [] then
          some ((alookup g c).getD [] ++ (rs.filter (fun r => r.code == c)).map toPlace)
        else none := by
  induction rs with
  | nil =>
    intro g c
    simp only [List.foldl_nil, List.filter_nil, List.map_nil, List.append_nil, ne_eq,
      not_true_eq_false, or_false]
    cases hg : alookup g c with
    | none => simp
    | some v => simp
  | cons r t ih =>
    intro g c
    simp only [List.foldl_cons]
    by_cases hc : r.code = c
    · have hfil : (r :: t).filter (fun r => r.code == c) = r :: t.filter (fun r => r.code == c) := by
        simp [List.filter_cons, hc]
      have hself : alookup (insertGrouped g r.code (toPlace r)) c =
          some ((alookup g c).getD [] ++ [toPlace r]) := by
        rw [hc]
        exact alookup_insertGrouped_self g c (toPlace r)
      rw [ih, hself, hfil]
      simp only [Option.isSome_some, true_or, if_true, Option.getD_some, List.map_cons]
      rw [if_pos (Or.inr (List.cons_ne_nil _ _))]
      simp [List.append_assoc]
    · have hcc : c ≠ r.code := fun he => hc he.symm
      have hfil : (r :: t).filter (fun r => r.code == c) = t.filter (fun r => r.code == c) := by
        simp [List.filter_cons, hc]
      rw [ih, alookup_insertGrouped_other hcc, hfil]

theorem keysNodup_foldGroup (rs : List Record) :
    ∀ g, (g.map Prod.fst).Nodup →
      ((rs.foldl (fun g r => insertGrouped g r.code (toPlace r)) g).map Prod.fst).Nodup := by
  induction rs with
  | nil => exact fun g h => h
  | cons r t ih =>
    intro g h
    exact ih _ (keysNodup_insertGrouped h r.code (toPlace r))

theorem alookup_foldIns_self (ps : List Place) :
    ∀ (m : List (List Char × List Place)) (c : List Char), ps ≠ [] →
      alookup (ps.foldl (fun m p => insertGrouped m c p) m) c =
        some ((alookup m c).getD [] ++ ps) := by
  induction ps with
  | nil => intro m c h; exact absurd rfl h
  | cons p t ih =>
    intro m c _
    simp only [List.foldl_cons]
    by_cases ht : t = []
    · subst ht
      simp only [List.foldl_nil]
      rw [alookup_insertGrouped_self]
    · rw [ih _ c ht, alookup_insertGrouped_self]
      simp [List.append_assoc]

theorem alookup_foldIns_other (ps : List Place) :
    ∀ (m : List (List Char × List Place)) (c c' : List Char), c' ≠ c →
      alookup (ps.foldl (fun m p => insertGrouped m c p) m) c' = alookup m c' := by
  induction ps with
  | nil => intro m c c' _; rfl
  | cons p t ih =>
    intro m c c' h
    simp only [List.foldl_cons]
    rw [ih _ c c' h, alookup_insertGrouped_other h]

/-- The places contributed to code `c` by the rows that carry it, in row
order: each row's sorted distinct triples, concatenated. -/
def codeContrib (rows : List RawRecord) (c : List Char) : List Place :=
  ((rows.filter (fun r => validCode r == some c)).map rowPlaces).flatten

theorem alookup_buildAux (rows : List RawRecord) :
    ∀ (m : List (List Char × List Place)) (c : List Char),
      alookup (rows.foldl processRow m) c =
        if (alookup m c).isSome = true ∨ codeContrib rows c ≠ [] then
          some ((alookup m c).getD [] ++ codeContrib rows c)
        else none := by
  induction rows with
  | nil =>
    intro m c
    simp only [List.foldl_nil, codeContrib, List.filter_nil, List.map_nil, List.flatten_nil,
      List.append_nil, ne_eq, not_true_eq_false, or_false]
    cases hg : alookup m c with
    | none => simp
    | some v => simp
  | cons r t ih =>
    intro m c
    simp only [List.foldl_cons]
    cases hv : validCode r with
    | none =>
      have hb : (validCode r == some c) = false := by rw [hv]; rfl
      have hpr : processRow m r = m := by simp [processRow, hv]
      have hcon : codeContrib (r :: t) c = codeContrib t c := by
        simp [codeContrib, List.filter_cons, hb]
      rw [hpr, hcon, ih]
    | some c0 =>
      by_cases hc : c0 = c
      · subst hc
        have hb : (validCode r == some c0) = true := by rw [hv]; exact beq_self_eq_true _
        have hcon : codeContrib (r :: t) c0 = rowPlaces r ++ codeContrib t c0 := by
          simp [codeContrib, List.filter_cons, hb]
        have hpr : processRow m r = (rowPlaces r).foldl (fun m p => insertGrouped m c0 p) m := by
          simp [processRow, hv]
        rw [hpr, hcon, ih]
        by_cases hps : rowPlaces r = []
        · rw [hps]
          simp only [List.foldl_nil, List.nil_append]
        · rw [alookup_foldIns_self _ _ _ hps]
          simp only [Option.isSome_some, true_or, if_true, Option.getD_some]
          rw [if_pos (Or.inr (fun he => hps (List.append_eq_nil.mp he).1))]
          rw [List.append_assoc]
      · have hcc : c ≠ c0 := fun he => hc he.symm
        have hb : (validCode r == some c) = false := by
          rw [hv]
          exact beq_eq_false_iff_ne.mpr (by simpa using hc)
        have hcon : codeContrib (r :: t) c = codeContrib t c := by
          simp [codeContrib, List.filter_cons, hb]
        have hpr : alookup (processRow m r) c = alookup m c := by
          simp only [processRow, hv]
          exact alookup_foldIns_other _ _ _ _ hcc
        rw [hcon, ih, hpr]

theorem alookup_fetch (rows : List RawRecord) (c : List Char) :
    alookup (fetch_and_build_mapping rows) c =
      if codeContrib rows c = [] then none else some (codeContrib rows c) := by
  unfold fetch_and_build_mapping
  rw [alookup_buildAux]
  by_cases hcon : codeContrib rows c = []
  · simp [alookup, hcon]
  · simp [alookup, hcon]

theorem rowPlaces_nodup (rec : RawRecord) : (rowPlaces rec).Nodup :=
  ((List.perm_insertionSort PlLe _).nodup_iff).mpr (List.nodup_dedup _)

theorem rowPlaces_sorted (rec : RawRecord) : List.Sorted PlLe (rowPlaces rec) :=
  List.sorted_insertionSort PlLe _

theorem mem_rowPlaces_fields {p : Place} {rec : RawRecord} (h : p ∈ rowPlaces rec) :
    p.amphoe ≠ [] ∧ p.district ≠ [] := by
  have h1 : p ∈ (rowTriples rec).dedup := (List.perm_insertionSort PlLe _).mem_iff.mp h
  have h2 : p ∈ rowTriples rec := List.mem_dedup.mp h1
  unfold rowTriples at h2
  rcases List.mem_filterMap.mp h2 with ⟨sd, _, hsd⟩
  cases hn : sd.subDistrictName with
  | none => rw [hn] at hsd; simp at hsd
  | some sdn =>
    cases ha : lookupDistrictName rec.districtList sd.districtId with
    | none => rw [hn, ha] at hsd; simp at hsd
    | some am =>
      rw [hn, ha] at hsd
      simp only at hsd
      by_cases he : (sdn.isEmpty || am.isEmpty) = true
      · rw [if_pos he] at hsd
        exact absurd hsd (by simp)
      · rw [if_neg he] at hsd
        simp only [Option.some.injEq] at hsd
        simp only [Bool.or_eq_true, not_or, Bool.not_eq_true] at he
        have ham : am ≠ [] := by
          intro hh
          rw [hh] at he
          simp at he
        have hsdn : sdn ≠ [] := by
          intro hh
          rw [hh] at he
          simp at he
        rw [← hsd]
        exact ⟨ham, hsdn⟩

theorem filter_validCode_single {rows : List RawRecord}
    (h : (rows.filterMap validCode).Nodup) (c : List Char) :
    rows.filter (fun r => validCode r == some c) = [] ∨
      ∃ rec, rows.filter (fun r => validCode r == some c) = [rec] := by
  induction rows with
  | nil => left; rfl
  | cons r t ih =>
    cases hv : validCode r with
    | none =>
      have hb : (validCode r == some c) = false := by rw [hv]; rfl
      have hfm : (r :: t).filterMap validCode = t.filterMap validCode := by
        simp [List.filterMap_cons, hv]
      rw [hfm] at h
      simpa [List.filter_cons, hb] using ih h
    | some c0 =>
      have hfm : (r :: t).filterMap validCode = c0 :: t.filterMap validCode := by
        simp [List.filterMap_cons, hv]
      rw [hfm, List.nodup_cons] at h
      by_cases hc : c0 = c
      · subst hc
        have hb : (validCode r == some c0) = true := by rw [hv]; exact beq_self_eq_true _
        have hrest : t.filter (fun r => validCode r == some c0) = [] := by
          rw [List.filter_eq_nil_iff]
          intro a ha hba
          exact h.1 (List.mem_filterMap.mpr ⟨a, ha, eq_of_beq hba⟩)
        right
        exact ⟨r, by simp [List.filter_cons, hb, hrest]⟩
      · have hb : (validCode r == some c) = false := by
          rw [hv]
          exact beq_eq_false_iff_ne.mpr (by simpa using hc)
        simpa [List.filter_cons, hb] using ih h.2

/-- A raw row carrying code 10110 with a single resolvable subdistrict. -/
def c2row : RawRecord :=
  RawRecord.mk "10110".toList [DistrictEntry.mk (some 1) (some "A".toList)] []
    [SubDistrictEntry.mk (some "B".toList) (some 1)]

/-- The single place contributed by `c2row`. -/
def c2place : Place :=
  Place.mk none "A".toList "B".toList

/-- C2 counterexample: when two raw rows carry the same postal code, the
mapping's list for that code holds the duplicated triple twice — the
per-row set only deduplicates within one row, so the claimed invariant
fails on such a dataset. -/
theorem C2_counterexample :
    ¬ ((alookup (fetch_and_build_mapping [c2row, c2row]) ("10110".toList)).getD []).Nodup := by
  decide

/-- C2 (amended): on datasets in which each (valid, zero-padded) postal
code is carried by at most one raw row — as in the intended per-code
dataset — every list stored in the mapping is duplicate-free and sorted
ascending by the (province, amphoe, district) tuple.  (With repeated
codes, each row's contribution is individually deduplicated and sorted,
but the contributions are concatenated.) -/
theorem C2_amended (rows : List RawRecord) (h : (rows.filterMap validCode).Nodup)
    (c : List Char) (l : List Place)
    (hl : alookup (fetch_and_build_mapping rows) c = some l) :
    l.Nodup ∧ List.Sorted PlLe l := by
  rw [alookup_fetch] at hl
  by_cases hcon : codeContrib rows c = []
  · rw [if_pos hcon] at hl
    exact absurd hl (by simp)
  · rw [if_neg hcon] at hl
    have hlc : l = codeContrib rows c := by
      injection hl with h1
      exact h1.symm
    rcases filter_validCode_single h c with h1 | ⟨rec, h1⟩
    · unfold codeContrib at hcon
      rw [h1] at hcon
      simp at hcon
    · have h2 : codeContrib rows c = rowPlaces rec := by
        unfold codeContrib
        rw [h1]
        simp
      rw [hlc, h2]
      exact ⟨rowPlaces_nodup rec, rowPlaces_sorted rec⟩

theorem C2_amended_witness :
    ([c2row].filterMap validCode).Nodup ∧
      alookup (fetch_and_build_mapping [c2row]) ("10110".toList) = some [c2place] ∧
      ([c2place].Nodup ∧ List.Sorted PlLe [c2place]) :=
  ⟨by decide, by decide, C2_amended [c2row] (by decide) ("10110".toList) [c2place] (by decide)⟩

/-- C10: every mapping entry is non-empty with non-empty amphoe and
district names, and for a well-formed 5-digit code the zipcode endpoint's
404 branch fires exactly when the code is absent from the mapping. -/
theorem C10_mapping_entries (rows : List RawRecord) :
    (∀ c l, alookup (fetch_and_build_mapping rows) c = some l →
      l ≠ [] ∧ ∀ p ∈ l, p.amphoe ≠ [] ∧ p.district ≠ []) ∧
    (∀ codeParam : List Char,
      pyIsdigitStr (pyStripL codeParam) = true → (pyStripL codeParam).length = 5 →
      ((zipcodeLookup (fetch_and_build_mapping rows) codeParam).status = 404 ↔
        alookup (fetch_and_build_mapping rows) (pyStripL codeParam) = none)) := by
  constructor
  · intro c l hl
    rw [alookup_fetch] at hl
    by_cases hcon : codeContrib rows c = []
    · rw [if_pos hcon] at hl
      exact absurd hl (by simp)
    · rw [if_neg hcon] at hl
      have hlc : l = codeContrib rows c := by
        injection hl with h1
        exact h1.symm
      subst hlc
      refine ⟨hcon, ?_⟩
      intro p hp
      unfold codeContrib at hp
      rcases List.mem_flatten.mp hp with ⟨l', hl', hpl⟩
      rcases List.mem_map.mp hl' with ⟨rec, _, hrec⟩
      exact mem_rowPlaces_fields (hrec ▸ hpl)
  · intro codeParam hdig hlen
    have hcond : (!pyIsdigitStr (pyStripL codeParam) || (pyStripL codeParam).length != 5) = false := by
      simp [hdig, hlen]
    cases hlk : alookup (fetch_and_build_mapping rows) (pyStripL codeParam) with
    | none => simp [zipcodeLookup, hcond, hlk]
    | some l =>
      have hne : l ≠ [] := by
        rw [alookup_fetch] at hlk
        by_cases hcon : codeContrib rows (pyStripL codeParam) = []
        · rw [if_pos hcon] at hlk
          exact absurd hlk (by simp)
        · rw [if_neg hcon] at hlk
          injection hlk with h1
          exact h1.symm ▸ hcon
      simp [zipcodeLookup, hcond, hlk, hne]

theorem C10_witness :
    (([c2place] : List Place) ≠ [] ∧ ∀ p ∈ [c2place], p.amphoe ≠ [] ∧ p.district ≠ []) ∧
    ((zipcodeLookup (fetch_and_build_mapping [c2row]) ("00000".toList)).status = 404 ↔
      alookup (fetch_and_build_mapping [c2row]) (pyStripL ("00000".toList)) = none) :=
  ⟨(C10_mapping_entries [c2row]).1 ("10110".toList) [c2place] (by decide),
   (C10_mapping_entries [c2row]).2 ("00000".toList) (by decide) (by decide)⟩

/-- C3: the zipcode endpoint returns 400 with the fixed error body unless
the trimmed code is exactly 5 ASCII digits; for a well-formed code it
returns 404 with error and code when the code is absent from the mapping,
and otherwise 200 with the stored locations in stored order. -/
theorem C3_zipcode_contract (rows : List RawRecord) (codeParam : List Char) :
    zipcodeLookup (fetch_and_build_mapping rows) codeParam =
      (let cc := pyStripL codeParam
       if pyIsdigitStr cc = true ∧ cc.length = 5 then
         match alookup (fetch_and_build_mapping rows) cc with
         | none => ZipResp.mk 404 (some errZipNotFound) (some cc) none
         | some l => ZipResp.mk 200 none (some cc) (some l)
       else ZipResp.mk 400 (some errInvalidZip) none none) := by
  by_cases hval : pyIsdigitStr (pyStripL codeParam) = true ∧ (pyStripL codeParam).length = 5
  · have hcond : (!pyIsdigitStr (pyStripL codeParam) || (pyStripL codeParam).length != 5) = false := by
      simp [hval.1, hval.2]
    cases hlk : alookup (fetch_and_build_mapping rows) (pyStripL codeParam) with
    | none => simp [zipcodeLookup, hcond, hlk, hval]
    | some l =>
      have hne : l ≠ [] := by
        rw [alookup_fetch] at hlk
        by_cases hcon : codeContrib rows (pyStripL codeParam) = []
        · rw [if_pos hcon] at hlk
          exact absurd hlk (by simp)
        · rw [if_neg hcon] at hlk
          injection hlk with h1
          exact h1.symm ▸ hcon
      simp [zipcodeLookup, hcond, hlk, hval, hne]
  · have hcond : (!pyIsdigitStr (pyStripL codeParam) || (pyStripL codeParam).length != 5) = true := by
      rcases Decidable.not_and_iff_or_not.mp hval with h1 | h1
      · cases h2 : pyIsdigitStr (pyStripL codeParam) with
        | false => simp
        | true => exact absurd h2 h1
      · have h2 : ((pyStripL codeParam).length != 5) = true := bne_iff_ne.mpr h1
        simp [h2]
    simp [zipcodeLookup, hcond, hval]

theorem insertGrouped_ne_nil (g : List (List Char × List Place)) (c : List Char) (p : Place) :
    insertGrouped g c p ≠ [] := by
  cases g with
  | nil => simp [insertGrouped]
  | cons kv t =>
    obtain ⟨k, v⟩ := kv
    by_cases hk : k = c <;> simp [insertGrouped, hk]

theorem foldGroup_ne_nil (rs : List Record) :
    ∀ g, g ≠ [] → rs.foldl (fun g r => insertGrouped g r.code (toPlace r)) g ≠ [] := by
  induction rs with
  | nil => exact fun g h => h
  | cons r t ih =>
    intro g _
    simp only [List.foldl_cons]
    exact ih _ (insertGrouped_ne_nil g r.code (toPlace r))

theorem filter_code_ne_nil_iff (rs : List Record) (c : List Char) :
    rs.filter (fun r => r.code == c) ≠ [] ↔ c ∈ rs.map Record.code := by
  constructor
  · intro h
    by_contra hc
    apply h
    rw [List.filter_eq_nil_iff]
    intro a ha hba
    exact hc (List.mem_map.mpr ⟨a, ha, eq_of_beq hba⟩)
  · intro h hfil
    rcases List.mem_map.mp h with ⟨r, hr, hrc⟩
    have h1 := (List.filter_eq_nil_iff.mp hfil) r hr
    apply h1
    rw [hrc]
    exact beq_self_eq_true c

/-- Test records for the reverse endpoint: 101 records with distinct
5-digit codes, all matched by an unfiltered reverse lookup. -/
def digitChar (d : Nat) : Char :=
  Char.ofNat (48 + d % 10)

/-- The 5-digit decimal code of `n < 100000`. -/
def code5 (n : Nat) : List Char :=
  [digitChar (n / 10000), digitChar (n / 1000), digitChar (n / 100), digitChar (n / 10), digitChar n]

/-- 101 records with pairwise distinct codes 00000 .. 00100. -/
def c1Records : List Record :=
  (List.range 101).map (fun n =>
    Record.mk (code5 n) none "a".toList "d".toList [] "a".toList "d".toList)

/-- C1 counterexample: with 101 matching distinct codes, `/api/reverse`
returns all 101 groups — the endpoint does not truncate to the first 100
distinct codes (only the HTML page `/ui/reverse` applies `[:100]`). -/
theorem C1_counterexample :
    ¬ (((reverseLookup c1Records none none none none).results.getD []).length ≤ 100) := by
  decide

/-- C1 (amended): `/api/reverse` responds 404 with the fixed error body
exactly when no record matches; otherwise it responds 200 with one group
per distinct matching code, sorted ascending by code, the groups covering
every matching code with NO truncation, and each group's locations being
exactly the matching records with that code in record iteration order,
not deduplicated. -/
theorem C1_amended (records : List Record) (provP amphP distP fuzzyP : Option (List Char)) :
    reverseLookup records provP amphP distP fuzzyP =
      (if (revMatches records provP amphP distP fuzzyP).isEmpty then
        ReverseResp.mk 404 (some errNoResults) none
       else ReverseResp.mk 200 none
        (some ((reverseLookup records provP amphP distP fuzzyP).results.getD []))) ∧
    List.Sorted KeyLe ((reverseLookup records provP amphP distP fuzzyP).results.getD []) ∧
    (((reverseLookup records provP amphP distP fuzzyP).results.getD []).map Prod.fst).Nodup ∧
    (∀ c, c ∈ ((reverseLookup records provP amphP distP fuzzyP).results.getD []).map Prod.fst ↔
      c ∈ (revMatches records provP amphP distP fuzzyP).map Record.code) ∧
    ((reverseLookup records provP amphP distP fuzzyP).results.getD []).all
      (fun pr => pr.2 ==
        ((revMatches records provP amphP distP fuzzyP).filter (fun r => r.code == pr.1)).map
          toPlace) = true := by
  by_cases hms : revMatches records provP amphP distP fuzzyP = []
  · have hgr : revGrouped records provP amphP distP fuzzyP = [] := by
      unfold revGrouped
      rw [hms]
      rfl
    have hresp : reverseLookup records provP amphP distP fuzzyP =
        ReverseResp.mk 404 (some errNoResults) none := by
      unfold reverseLookup
      rw [hgr]
      rfl
    refine ⟨?_, ?_, ?_, ?_, ?_⟩
    · rw [hresp, hms]
      rfl
    · rw [hresp]
      exact List.sorted_nil
    · rw [hresp]
      exact List.nodup_nil
    · intro c
      rw [hresp, hms]
      rfl
    · rw [hresp]
      rfl
  · have hgne : revGrouped records provP amphP distP fuzzyP ≠ [] := by
      unfold revGrouped
      obtain ⟨r0, t0, hrt⟩ := List.exists_cons_of_ne_nil hms
      rw [hrt]
      simp only [List.foldl_cons]
      exact foldGroup_ne_nil t0 _ (insertGrouped_ne_nil [] r0.code (toPlace r0))
    have hresp : reverseLookup records provP amphP distP fuzzyP =
        ReverseResp.mk 200 none
          (some (List.insertionSort KeyLe (revGrouped records provP amphP distP fuzzyP))) := by
      unfold reverseLookup
      rw [if_neg (by simpa [List.isEmpty_iff] using hgne)]
    have hkeysnodup : ((revGrouped records provP amphP distP fuzzyP).map Prod.fst).Nodup := by
      unfold revGrouped
      exact keysNodup_foldGroup _ [] List.nodup_nil
    have hlook : ∀ c, alookup (revGrouped records provP amphP distP fuzzyP) c =
        (if ((revMatches records provP amphP distP fuzzyP).filter (fun r => r.code == c)) ≠ [] then
          some (((revMatches records provP amphP distP fuzzyP).filter
            (fun r => r.code == c)).map toPlace)
         else none) := by
      intro c
      unfold revGrouped
      rw [alookup_foldGroup]
      simp [alookup]
    have hperm : List.Perm
        (List.insertionSort KeyLe (revGrouped records provP amphP distP fuzzyP))
        (revGrouped records provP amphP distP fuzzyP) :=
      List.perm_insertionSort KeyLe _
    refine ⟨?_, ?_, ?_, ?_, ?_⟩
    · rw [hresp, if_neg (by simpa [List.isEmpty_iff] using hms)]
      rfl
    · rw [hresp]
      exact List.sorted_insertionSort KeyLe _
    · rw [hresp]
      simp only [Option.getD_some]
      exact ((hperm.map Prod.fst).nodup_iff).mpr hkeysnodup
    · intro c
      rw [hresp]
      simp only [Option.getD_some]
      rw [List.mem_map, List.mem_map]
      constructor
      · rintro ⟨pr, hpr, hc⟩
        have hpr' : pr ∈ revGrouped records provP amphP distP fuzzyP := hperm.mem_iff.mp hpr
        have hsome : (alookup (revGrouped records provP amphP distP fuzzyP) pr.1).isSome = true :=
          (alookup_isSome_iff _ pr.1).mpr (List.mem_map.mpr ⟨pr, hpr', rfl⟩)
        rw [hlook pr.1] at hsome
        by_cases hf : (revMatches records provP amphP distP fuzzyP).filter
            (fun r => r.code == pr.1) ≠ []
        · rcases List.mem_map.mp ((filter_code_ne_nil_iff _ pr.1).mp hf) with ⟨r, hr, hrc⟩
          exact ⟨r, hr, by rw [hrc, hc]⟩
        · rw [if_neg hf] at hsome
          simp at hsome
      · rintro ⟨r, hr, hrc⟩
        have hf : (revMatches records provP amphP distP fuzzyP).filter
            (fun r2 => r2.code == c) ≠ [] :=
          (filter_code_ne_nil_iff _ c).mpr (List.mem_map.mpr ⟨r, hr, hrc⟩)
        have hsome : (alookup (revGrouped records provP amphP distP fuzzyP) c).isSome = true := by
          rw [hlook c, if_pos hf]
          rfl
        rcases List.mem_map.mp ((alookup_isSome_iff _ c).mp hsome) with ⟨pr, hpr, hc⟩
        exact ⟨pr, hperm.mem_iff.mpr hpr, hc⟩
    · rw [hresp]
      simp only [Option.getD_some]
      rw [List.all_eq_true]
      intro pr hpr
      have hpr' : pr ∈ revGrouped records provP amphP distP fuzzyP := hperm.mem_iff.mp hpr
      have halk : alookup (revGrouped records provP amphP distP fuzzyP) pr.1 = some pr.2 :=
        (mem_iff_alookup hkeysnodup pr).mp hpr'
      rw [hlook pr.1] at halk
      by_cases hf : (revMatches records provP amphP distP fuzzyP).filter
          (fun r => r.code == pr.1) ≠ []
      · rw [if_pos hf] at halk
        injection halk with h1
        exact beq_iff_eq.mpr h1.symm
      · rw [if_neg hf] at halk
        exact absurd halk (by simp)

/-- C6: the complete matching behaviour of `is_match`: an empty normalized
query matches everything; otherwise a normalized substring hit matches
regardless of `fuzzy`; otherwise the match holds iff `fuzzy` is set and
the SequenceMatcher ratio of the normalized strings is at least 0.75. -/
theorem C6_is_match_contract (cand q : Option (List Char)) (fz : Bool) :
    is_match cand q fz =
      ((normalize_text q).isEmpty ||
        isSubstr (normalize_text q) (normalize_text cand) ||
        (fz && ratioGe34 (normalize_text cand) (normalize_text q))) := by
  simp only [is_match]
  by_cases h1 : (normalize_text q).isEmpty = true
  · simp [h1]
  · simp only [h1, Bool.false_eq_true, if_false, Bool.false_or]
    by_cases h2 : isSubstr (normalize_text q) (normalize_text cand) = true
    · simp [h2]
    · simp only [h2, Bool.false_eq_true, if_false, Bool.false_or]
      by_cases h3 : fz
      · subst h3
        simp
      · simp only [Bool.not_eq_true] at h3
        subst h3
        simp

/-- The forward-search filter written as the spec's logical conjunction of
the supplied filters (a second formulation, following the specification's
words, to be compared with `searchPass` which transcribes the code). -/
def searchFilterSpec (r : Record) (code_q provP amphP distP qP : List Char) (fz : Bool) : Prop :=
  (code_q = [] ∨ startsWithL code_q r.code = true) ∧
  (provP = [] ∨ is_match r.province (some provP) fz = true) ∧
  (amphP = [] ∨ is_match (some r.amphoe) (some amphP) fz = true) ∧
  (distP = [] ∨ is_match (some r.district) (some distP) fz = true) ∧
  (qP = [] ∨ (is_match r.province (some qP) fz = true ∨
    is_match (some r.amphoe) (some qP) fz = true ∨
    is_match (some r.district) (some qP) fz = true ∨ startsWithL qP r.code = true))

theorem searchPass_iff (r : Record) (cq pP aP dP qP : List Char) (fz : Bool) :
    searchPass r cq pP aP dP qP fz = true ↔ searchFilterSpec r cq pP aP dP qP fz := by
  unfold searchPass searchFilterSpec
  simp [Bool.and_eq_true, Bool.or_eq_true, List.isEmpty_iff, and_assoc, or_assoc]

/-- C4: a record is in the forward-search match set iff it satisfies every
supplied filter (logical AND, with q's internal OR); `total` counts all
matches before paging; `results` is exactly the match rows sliced
`[offset, offset+limit)` in record iteration order; status is always 200. -/
theorem C4_search_contract (records : List Record)
    (codeP provP amphP distP qP fuzzyP limitP offsetP : Option (List Char)) :
    (∀ r : Record,
      searchPass r (pyStripL (codeP.getD [])) (provP.getD []) (amphP.getD []) (distP.getD [])
          (qP.getD []) (fuzzyTruthy (fuzzyP.getD falseStr)) = true ↔
        searchFilterSpec r (pyStripL (codeP.getD [])) (provP.getD []) (amphP.getD [])
          (distP.getD []) (qP.getD []) (fuzzyTruthy (fuzzyP.getD falseStr))) ∧
    (∀ r : Record,
      r ∈ records.filter (fun r =>
          searchPass r (pyStripL (codeP.getD [])) (provP.getD []) (amphP.getD []) (distP.getD [])
            (qP.getD []) (fuzzyTruthy (fuzzyP.getD falseStr))) ↔
        (r ∈ records ∧
          searchFilterSpec r (pyStripL (codeP.getD [])) (provP.getD []) (amphP.getD [])
            (distP.getD []) (qP.getD []) (fuzzyTruthy (fuzzyP.getD falseStr)))) ∧
    (forwardSearch records codeP provP amphP distP qP fuzzyP limitP offsetP).total =
      (records.filter (fun r =>
        searchPass r (pyStripL (codeP.getD [])) (provP.getD []) (amphP.getD []) (distP.getD [])
          (qP.getD []) (fuzzyTruthy (fuzzyP.getD falseStr)))).length ∧
    (forwardSearch records codeP provP amphP distP qP fuzzyP limitP offsetP).results =
      (((records.filter (fun r =>
          searchPass r (pyStripL (codeP.getD [])) (provP.getD []) (amphP.getD []) (distP.getD [])
            (qP.getD []) (fuzzyTruthy (fuzzyP.getD falseStr)))).map toRow).drop
        (effOffset offsetP).toNat).take (effLimit limitP).toNat ∧
    (forwardSearch records codeP provP amphP distP qP fuzzyP limitP offsetP).limit =
      effLimit limitP ∧
    (forwardSearch records codeP provP amphP distP qP fuzzyP limitP offsetP).offset =
      effOffset offsetP ∧
    (forwardSearch records codeP provP amphP distP qP fuzzyP limitP offsetP).status = 200 := by
  refine ⟨fun r => searchPass_iff r _ _ _ _ _ _, ?_, ?_, rfl, rfl, rfl, rfl⟩
  · intro r
    rw [List.mem_filter]
    constructor
    · rintro ⟨h1, h2⟩
      exact ⟨h1, (searchPass_iff r _ _ _ _ _ _).mp h2⟩
    · rintro ⟨h1, h2⟩
      exact ⟨h1, (searchPass_iff r _ _ _ _ _ _).mpr h2⟩
  · simp [forwardSearch]

/-- A single record used to exercise the UI search handler. -/
def c5record : Record :=
  Record.mk "10110".toList none "a".toList "d".toList [] "a".toList "d".toList

/-- C5 counterexample: with no parameters at all, `/ui/search` does NOT
render the bare form — the `fuzzy` dict value defaults to the non-empty
string "false", so `any(params.values())` is true and the handler computes
(and renders) results. -/
theorem C5_counterexample :
    (uiSearch [c5record] none none none none none none).1 = some [toRow c5record] ∧
      (uiSearch [c5record] none none none none none none).2 = 1 := by
  decide

/-- C5 (amended): `/ui/search` renders the bare form only when every one
of the six dict values is empty, which requires `fuzzy` to be explicitly
supplied as an empty string (absent `fuzzy` defaults to the truthy string
"false"); otherwise it computes the full match set with exactly the
forward-search filter semantics (`searchPass` is shared between the two
handlers, whose source loops are identical), reports `total` as the full
match count, and renders only the first 100 matches. -/
theorem C5_ui_search (records : List Record)
    (qP codeP provP amphP distP fuzzyP : Option (List Char)) :
    uiSearch records qP codeP provP amphP distP fuzzyP =
      (if qP.getD [] = [] ∧ codeP.getD [] = [] ∧ provP.getD [] = [] ∧ amphP.getD [] = [] ∧
          distP.getD [] = [] ∧ fuzzyP.getD falseStr = [] then
        ((none : Option (List ResultRow)), 0)
       else
        (some (((records.filter (fun r =>
            searchPass r (pyStripL (codeP.getD [])) (provP.getD []) (amphP.getD [])
              (distP.getD []) (qP.getD []) (fuzzyTruthy (fuzzyP.getD falseStr)))).map toRow).take
          100),
         (records.filter (fun r =>
            searchPass r (pyStripL (codeP.getD [])) (provP.getD []) (amphP.getD [])
              (distP.getD []) (qP.getD []) (fuzzyTruthy (fuzzyP.getD falseStr)))).length)) ∧
    ((uiSearch records qP codeP provP amphP distP fuzzyP).1 = none ↔
      (qP.getD [] = [] ∧ codeP.getD [] = [] ∧ provP.getD [] = [] ∧ amphP.getD [] = [] ∧
        distP.getD [] = [] ∧ fuzzyP.getD falseStr = [])) := by
  by_cases hall : qP.getD [] = [] ∧ codeP.getD [] = [] ∧ provP.getD [] = [] ∧ amphP.getD [] = [] ∧
      distP.getD [] = [] ∧ fuzzyP.getD falseStr = []
  · obtain ⟨h1, h2, h3, h4, h5, h6⟩ := hall
    have hui : uiSearch records qP codeP provP amphP distP fuzzyP = (none, 0) := by
      unfold uiSearch
      rw [if_neg (by simp [h1, h2, h3, h4, h5, h6])]
    refine ⟨?_, ?_⟩
    · rw [hui, if_pos ⟨h1, h2, h3, h4, h5, h6⟩]
    · rw [hui]
      simp [h1, h2, h3, h4, h5, h6]
  · have hor : (!(qP.getD []).isEmpty || !(codeP.getD []).isEmpty || !(provP.getD []).isEmpty ||
        !(amphP.getD []).isEmpty || !(distP.getD []).isEmpty ||
        !(fuzzyP.getD falseStr).isEmpty) = true := by
      by_contra hc
      simp only [Bool.not_eq_true] at hc
      simp [List.isEmpty_iff] at hc
      obtain ⟨⟨⟨⟨⟨h1, h2⟩, h3⟩, h4⟩, h5⟩, h6⟩ := hc
      exact hall ⟨h1, h2, h3, h4, h5, h6⟩
    have hui : uiSearch records qP codeP provP amphP distP fuzzyP =
        (some (((records.filter (fun r =>
            searchPass r (pyStripL (codeP.getD [])) (provP.getD []) (amphP.getD [])
              (distP.getD []) (qP.getD []) (fuzzyTruthy (fuzzyP.getD falseStr)))).map toRow).take
          100),
         ((records.filter (fun r =>
            searchPass r (pyStripL (codeP.getD [])) (provP.getD []) (amphP.getD [])
              (distP.getD []) (qP.getD []) (fuzzyTruthy (fuzzyP.getD falseStr)))).map
           toRow).length) := by
      unfold uiSearch
      rw [if_pos hor]
    refine ⟨?_, ?_⟩
    · rw [hui, if_neg hall]
      simp [List.length_map]
    · rw [hui]
      simp only [Option.some.injEq]
      constructor
      · intro h
        exact absurd h (by simp)
      · intro h
        exact absurd h hall

/-- C7: effective limit/offset values: search `limit` defaults to 50 and
is clamped into [1, 200]; search `offset` defaults to 0 and is clamped to
be non-negative; suggest `limit` defaults to 10 and is clamped into
[1, 20]; an unparsable value silently falls back to the default instead of
erroring, and the search and suggest handlers always respond 200. -/
theorem C7_numeric_params :
    (∀ p, 1 ≤ effLimit p ∧ effLimit p ≤ 200) ∧
    effLimit none = 50 ∧
    (∀ s, effLimit (some s) =
      (match pyParseInt s with
       | some n => max 1 (min 200 n)
       | none => 50)) ∧
    effLimit (some "9999".toList) = 200 ∧
    effLimit (some "abc".toList) = 50 ∧
    (∀ p, 0 ≤ effOffset p) ∧
    effOffset none = 0 ∧
    (∀ s, effOffset (some s) =
      (match pyParseInt s with
       | some n => max 0 n
       | none => 0)) ∧
    effOffset (some "abc".toList) = 0 ∧
    (∀ p, 1 ≤ effSuggestLimit p ∧ effSuggestLimit p ≤ 20) ∧
    effSuggestLimit none = 10 ∧
    (∀ s, effSuggestLimit (some s) =
      (match pyParseInt s with
       | some n => max 1 (min 20 n)
       | none => 10)) ∧
    (∀ (records : List Record) (codeP provP amphP distP qP fuzzyP limitP offsetP : Option (List Char)),
      (forwardSearch records codeP provP amphP distP qP fuzzyP limitP offsetP).status = 200) ∧
    (∀ (zips provs amphs dists : List (List Char)) (qP limitP : Option (List Char)),
      (suggestHandler zips provs amphs dists qP limitP).status = 200) := by
  refine ⟨?_, rfl, fun s => rfl, by decide, by decide, ?_, rfl, fun s => rfl, by decide,
    ?_, rfl, fun s => rfl, fun _ _ _ _ _ _ _ _ _ => rfl, ?_⟩
  · intro p
    cases p with
    | none => exact ⟨by decide, by decide⟩
    | some s =>
      cases hp : pyParseInt s with
      | none =>
        rw [show effLimit (some s) = 50 from by simp [effLimit, hp]]
        exact ⟨by norm_num, by norm_num⟩
      | some n =>
        rw [show effLimit (some s) = max 1 (min 200 n) from by simp [effLimit, hp]]
        exact ⟨le_max_left 1 _, max_le (by norm_num) (min_le_left 200 n)⟩
  · intro p
    cases p with
    | none => exact by decide
    | some s =>
      cases hp : pyParseInt s with
      | none =>
        rw [show effOffset (some s) = 0 from by simp [effOffset, hp]]
      | some n =>
        rw [show effOffset (some s) = max 0 n from by simp [effOffset, hp]]
        exact le_max_left 0 n
  · intro p
    cases p with
    | none => exact ⟨by decide, by decide⟩
    | some s =>
      cases hp : pyParseInt s with
      | none =>
        rw [show effSuggestLimit (some s) = 10 from by simp [effSuggestLimit, hp]]
        exact ⟨by norm_num, by norm_num⟩
      | some n =>
        rw [show effSuggestLimit (some s) = max 1 (min 20 n) from by simp [effSuggestLimit, hp]]
        exact ⟨le_max_left 1 _, max_le (by norm_num) (min_le_left 20 n)⟩
  · intro zips provs amphs dists qP limitP
    by_cases h : (normalize_text (some (qP.getD []))).isEmpty = true
    · simp [suggestHandler, h]
    · simp [suggestHandler, h]

theorem filterValuesAux_eq (qn : List Char) (limit : Nat) :
    ∀ (vs acc : List (List Char)), acc.length < limit →
      filterValuesAux qn limit acc vs =
        acc ++ (vs.filter (fun v => isSubstr qn (normalize_text (some v)))).take
          (limit - acc.length) := by
  intro vs
  induction vs with
  | nil =>
    intro acc h
    simp [filterValuesAux]
  | cons v t ih =>
    intro acc hacc
    by_cases hv : isSubstr qn (normalize_text (some v)) = true
    · have hfil : (v :: t).filter (fun v => isSubstr qn (normalize_text (some v))) =
          v :: t.filter (fun v => isSubstr qn (normalize_text (some v))) := by
        simp [List.filter_cons, hv]
      by_cases hl : limit ≤ (acc ++ [v]).length
      · have hstep : filterValuesAux qn limit acc (v :: t) = acc ++ [v] := by
          simp only [filterValuesAux]
          rw [if_pos hv, if_pos hl]
        have hlen : limit = acc.length + 1 := by
          simp only [List.length_append, List.length_cons, List.length_nil] at hl
          omega
        rw [hstep, hfil, hlen]
        simp
      · have hstep : filterValuesAux qn limit acc (v :: t) =
            filterValuesAux qn limit (acc ++ [v]) t := by
          simp only [filterValuesAux]
          rw [if_pos hv, if_neg hl]
        have hlt : (acc ++ [v]).length < limit := by
          simp only [List.length_append, List.length_cons, List.length_nil] at hl ⊢
          omega
        rw [hstep, ih _ hlt, hfil]
        have h2 : limit - acc.length = (limit - (acc ++ [v]).length) + 1 := by
          simp only [List.length_append, List.length_cons, List.length_nil]
          omega
        rw [h2, List.take_succ_cons, List.append_assoc]
        rfl
    · have hfil : (v :: t).filter (fun v => isSubstr qn (normalize_text (some v))) =
          t.filter (fun v => isSubstr qn (normalize_text (some v))) := by
        simp [List.filter_cons, hv]
      have hstep : filterValuesAux qn limit acc (v :: t) = filterValuesAux qn limit acc t := by
        simp only [filterValuesAux]
        rw [if_neg hv, if_neg (by omega)]
      rw [hstep, ih acc hacc, hfil]

theorem filter_values_eq (qn : List Char) (limit : Nat) (h : 1 ≤ limit)
    (values : List (List Char)) :
    filter_values qn limit values =
      (values.filter (fun v => isSubstr qn (normalize_text (some v)))).take limit := by
  unfold filter_values
  rw [filterValuesAux_eq qn limit values [] (by simpa using h)]
  simp

/-- C8: the suggest endpoint with empty normalized query returns the first
`limit` entries of each of the four index lists; with a non-empty
normalized query, zipcode suggestions are the first `limit` codes starting
with the normalized query, and the other three lists are the first `limit`
values (in the given index order) whose normalized form contains the
normalized query as a substring anywhere. -/
theorem C8_suggest_contract (zips provs amphs dists : List (List Char))
    (qP limitP : Option (List Char)) :
    suggestHandler zips provs amphs dists qP limitP =
      (if (normalize_text (some (qP.getD []))).isEmpty then
        SuggestResp.mk (zips.take (effSuggestLimit limitP).toNat)
          (provs.take (effSuggestLimit limitP).toNat)
          (amphs.take (effSuggestLimit limitP).toNat)
          (dists.take (effSuggestLimit limitP).toNat) 200
       else
        SuggestResp.mk
          ((zips.filter (fun z => startsWithL (normalize_text (some (qP.getD []))) z)).take
            (effSuggestLimit limitP).toNat)
          ((provs.filter (fun v => isSubstr (normalize_text (some (qP.getD [])))
            (normalize_text (some v)))).take (effSuggestLimit limitP).toNat)
          ((amphs.filter (fun v => isSubstr (normalize_text (some (qP.getD [])))
            (normalize_text (some v)))).take (effSuggestLimit limitP).toNat)
          ((dists.filter (fun v => isSubstr (normalize_text (some (qP.getD [])))
            (normalize_text (some v)))).take (effSuggestLimit limitP).toNat) 200) := by
  have hlim : 1 ≤ (effSuggestLimit limitP).toNat := by
    have h1 : 1 ≤ effSuggestLimit limitP := by
      cases limitP with
      | none => decide
      | some s =>
        cases hp : pyParseInt s with
        | none =>
          rw [show effSuggestLimit (some s) = 10 from by simp [effSuggestLimit, hp]]
          norm_num
        | some n =>
          rw [show effSuggestLimit (some s) = max 1 (min 20 n) from by
            simp [effSuggestLimit, hp]]
          exact le_max_left 1 _
    omega
  by_cases h : (normalize_text (some (qP.getD []))).isEmpty = true
  · simp [suggestHandler, h]
  · simp only [suggestHandler, h, Bool.false_eq_true, if_false]
    rw [filter_values_eq _ _ hlim, filter_values_eq _ _ hlim, filter_values_eq _ _ hlim]
